import Mathlib

/-!
Verification of the options-dashboard data layer: the shapers
`process_options_data` and `process_nifty_options_data` from
`data_fetchers.py`, the aggregation pieces of `plotting_utils.py`
(open-interest summary, top-strikes-by-volume, put-call ratio), the
fetch logic of `fetch_options_chain`, and the CSV export of the
filtered NIFTY table from `streamlit_app.py`.

Numeric payload values are modelled as integers; the clock
(`datetime.now()`) is an explicit integer parameter; a Python value
that may be `None` or absent is an `Option`; a falsy payload is the
`none` of an outer `Option`.
-/

namespace OptionsDash

/-! ### Sorting (model of `DataFrame.sort_values`)

`sort_values(by=[...])` sorts by a total boolean preorder.  We use a
structurally recursive insertion sort so that terms reduce in the
kernel, and prove the permutation and sortedness facts we need.
-/

def insertOrd (le : α → α → Bool) (a : α) : List α → List α
  | [] => [a]
  | b :: bs => if le a b then a :: b :: bs else b :: insertOrd le a bs

def sortOrd (le : α → α → Bool) : List α → List α
  | [] => []
  | a :: as => insertOrd le a (sortOrd le as)

theorem perm_insertOrd (le : α → α → Bool) (a : α) (l : List α) :
    (insertOrd le a l).Perm (a :: l) := by
  induction l with
  | nil => simp [insertOrd]
  | cons b bs ih =>
    by_cases h : le a b
    · simp [insertOrd, h]
    · simp only [insertOrd, h, if_neg]
      exact (ih.cons b).trans (List.Perm.swap a b bs)

theorem perm_sortOrd (le : α → α → Bool) (l : List α) :
    (sortOrd le l).Perm l := by
  induction l with
  | nil => simp [sortOrd]
  | cons a as ih =>
    exact (perm_insertOrd le a (sortOrd le as)).trans (ih.cons a)

theorem length_sortOrd (le : α → α → Bool) (l : List α) :
    (sortOrd le l).length = l.length :=
  (perm_sortOrd le l).length_eq

theorem mem_sortOrd {le : α → α → Bool} {a : α} {l : List α} :
    a ∈ sortOrd le l ↔ a ∈ l :=
  (perm_sortOrd le l).mem_iff

theorem mem_insertOrd {le : α → α → Bool} {x a : α} {l : List α} :
    x ∈ insertOrd le a l ↔ x = a ∨ x ∈ l := by
  rw [(perm_insertOrd le a l).mem_iff, List.mem_cons]

theorem pairwise_insertOrd {le : α → α → Bool}
    (htrans : ∀ a b c, le a b = true → le b c = true → le a c = true)
    (total : ∀ a b, (le a b || le b a) = true) (a : α) (l : List α)
    (hl : l.Pairwise (fun x y => le x y = true)) :
    (insertOrd le a l).Pairwise (fun x y => le x y = true) := by
  induction l with
  | nil => simp [insertOrd]
  | cons b bs ih =>
    rcases List.pairwise_cons.mp hl with ⟨hb, hbs⟩
    by_cases h : le a b = true
    · simp only [insertOrd, h, if_pos]
      refine List.pairwise_cons.mpr ⟨?_, hl⟩
      intro y hy
      rcases List.mem_cons.mp hy with rfl | hy
      · exact h
      · exact htrans a b y h (hb y hy)
    · simp only [insertOrd, h, if_neg, Bool.not_eq_true]
      refine List.pairwise_cons.mpr ⟨?_, ih hbs⟩
      intro y hy
      rcases mem_insertOrd.mp hy with h' | hy
      · have := total a b
        simp only [Bool.eq_false_iff.mpr h, Bool.false_or] at this
        rw [h']
        exact this
      · exact hb y hy

theorem sorted_sortOrd {le : α → α → Bool}
    (htrans : ∀ a b c, le a b = true → le b c = true → le a c = true)
    (total : ∀ a b, (le a b || le b a) = true) (l : List α) :
    (sortOrd le l).Pairwise (fun x y => le x y = true) := by
  induction l with
  | nil => simp [sortOrd]
  | cons a as ih => exact pairwise_insertOrd htrans total a (sortOrd le as) ih

/-! ### US market model (`data_fetchers.py`, equity path)

A pandas row of a call/put table is modelled as a record of optional
fields: `none` means the column is absent, so that `row.get(key, 0)`
becomes `Option.getD _ 0`.  The payload dict built by
`fetch_options_chain` is `OptionsData`; a falsy payload is the `none`
of the surrounding `Option`.
-/

structure USRow where
  strike : Option Int := none
  lastPrice : Option Int := none
  bid : Option Int := none
  ask : Option Int := none
  volume : Option Int := none
  openInterest : Option Int := none
  impliedVolatility : Option Int := none
deriving DecidableEq

inductive UType where
  | Call
  | Put
deriving DecidableEq

structure OptionsData where
  symbol : String
  expirationDate : String
  calls : Option (List USRow)
  puts : Option (List USRow)
  timestamp : Int
deriving DecidableEq

structure USRecord where
  symbol : String
  otype : UType
  strike : Int
  lastPrice : Int
  bid : Int
  ask : Int
  volume : Int
  openInterest : Int
  impliedVolatility : Int
  expirationDate : String
deriving DecidableEq

/-- One appended record of `process_options_data`: every field is
`row.get(key, 0)`, i.e. the column value when present and `0` otherwise. -/
def usRecOfRow (symbol expirationDate : String) (t : UType) (r : USRow) : USRecord :=
  { symbol := symbol
    otype := t
    strike := r.strike.getD 0
    lastPrice := r.lastPrice.getD 0
    bid := r.bid.getD 0
    ask := r.ask.getD 0
    volume := r.volume.getD 0
    openInterest := r.openInterest.getD 0
    impliedVolatility := r.impliedVolatility.getD 0
    expirationDate := expirationDate }

/-- Rank of the `Type` column value under string order:
the string `Call` sorts before `Put` (likewise `CE` before `PE`). -/
def uTypeRank : UType → Nat
  | UType.Call => 0
  | UType.Put => 1

/-- The `sort_values(by=[Type, Strike])` comparison for US records. -/
def usRecLe (a b : USRecord) : Bool :=
  decide (uTypeRank a.otype < uTypeRank b.otype) ||
    (uTypeRank a.otype == uTypeRank b.otype && decide (a.strike ≤ b.strike))

/-- `process_options_data`: `None` payload gives `None`; otherwise both
present tables are flattened (calls first, then puts) and the result is
sorted by `(Type, Strike)`. -/
def process_options_data (od : Option OptionsData) : Option (List USRecord) :=
  match od with
  | none => none
  | some d =>
    some (sortOrd usRecLe
      ((d.calls.getD []).map (usRecOfRow d.symbol d.expirationDate UType.Call) ++
        (d.puts.getD []).map (usRecOfRow d.symbol d.expirationDate UType.Put)))

theorem usRecLe_trans : ∀ a b c, usRecLe a b = true → usRecLe b c = true →
    usRecLe a c = true := by
  intro a b c hab hbc
  simp only [usRecLe, Bool.or_eq_true, Bool.and_eq_true, decide_eq_true_eq,
    beq_iff_eq] at *
  omega

theorem usRecLe_total : ∀ a b, (usRecLe a b || usRecLe b a) = true := by
  intro a b
  simp only [usRecLe, Bool.or_eq_true, Bool.and_eq_true, decide_eq_true_eq,
    beq_iff_eq]
  omega

/-! ### NIFTY model (`data_fetchers.py`, index path)

One entry of `data[records][data]` is an `NseItem`; its `CE`/`PE`
sub-dicts are optional (`ce_data` / `pe_data` may be `None`, absent,
or falsy — all modelled as `none`).  Sub-object fields are read with
`.get(key)`, defaulting to `None`, so record fields stay `Option Int`.
`datetime.now()` is the explicit parameter `now`.
-/

structure NseSide where
  openInterest : Option Int := none
  changeinOpenInterest : Option Int := none
  totalTradedVolume : Option Int := none
  impliedVolatility : Option Int := none
  lastPrice : Option Int := none
  underlyingValue : Option Int := none
  bidprice : Option Int := none
  askPrice : Option Int := none
deriving DecidableEq

structure NseItem where
  strikePrice : Option Int := none
  CE : Option NseSide := none
  PE : Option NseSide := none
deriving DecidableEq

/-- The payload dict: `none` in `recordsData` models a payload without
the `records`/`data` keys, in which case the loop body never runs. -/
structure NseData where
  recordsData : Option (List NseItem)
deriving DecidableEq

inductive NType where
  | CE
  | PE
deriving DecidableEq

structure NRecord where
  symbol : String
  otype : NType
  strike : Option Int
  openInterest : Option Int
  changeInOI : Option Int
  volume : Option Int
  iv : Option Int
  lastPrice : Option Int
  underlying : Option Int
  bid : Option Int
  ask : Option Int
  timestamp : Int
deriving DecidableEq

/-- The record appended for a present CE sub-object. -/
def ceRec (now : Int) (strike : Option Int) (c : NseSide) : NRecord :=
  { symbol := "NIFTY"
    otype := NType.CE
    strike := strike
    openInterest := c.openInterest
    changeInOI := c.changeinOpenInterest
    volume := c.totalTradedVolume
    iv := c.impliedVolatility
    lastPrice := c.lastPrice
    underlying := c.underlyingValue
    bid := c.bidprice
    ask := c.askPrice
    timestamp := now }

/-- The record appended for a present PE sub-object. -/
def peRec (now : Int) (strike : Option Int) (p : NseSide) : NRecord :=
  { symbol := "NIFTY"
    otype := NType.PE
    strike := strike
    openInterest := p.openInterest
    changeInOI := p.changeinOpenInterest
    volume := p.totalTradedVolume
    iv := p.impliedVolatility
    lastPrice := p.lastPrice
    underlying := p.underlyingValue
    bid := p.bidprice
    ask := p.askPrice
    timestamp := now }

/-- The records one loop iteration appends for one strike entry:
the CE record when `ce_data` is truthy, then the PE record when
`pe_data` is truthy. -/
def niftyItemRecords (now : Int) (item : NseItem) : List NRecord :=
  (match item.CE with
    | some c => [ceRec now item.strikePrice c]
    | none => []) ++
  (match item.PE with
    | some p => [peRec now item.strikePrice p]
    | none => [])

def nTypeRank : NType → Nat
  | NType.CE => 0
  | NType.PE => 1

/-- `sort_values` comparison on the optional strike column:
missing values sort last, as pandas places NaN keys. -/
def optIntLe : Option Int → Option Int → Bool
  | some a, some b => decide (a ≤ b)
  | some _, none => true
  | none, some _ => false
  | none, none => true

/-- The `sort_values(by=[Type, Strike])` comparison for NIFTY records. -/
def nRecLe (a b : NRecord) : Bool :=
  decide (nTypeRank a.otype < nTypeRank b.otype) ||
    (nTypeRank a.otype == nTypeRank b.otype && optIntLe a.strike b.strike)

/-- `process_nifty_options_data`: `None`/falsy payload gives `None`;
otherwise the strike entries are walked in order, each contributing its
present sub-objects, and the result is sorted by `(Type, Strike)`. -/
def process_nifty_options_data (now : Int) (data : Option NseData) :
    Option (List NRecord) :=
  match data with
  | none => none
  | some d =>
    some (sortOrd nRecLe ((d.recordsData.getD []).flatMap (niftyItemRecords now)))

theorem optIntLe_trans : ∀ a b c, optIntLe a b = true → optIntLe b c = true →
    optIntLe a c = true := by
  intro a b c hab hbc
  cases a <;> cases b <;> cases c <;> simp_all [optIntLe]
  omega

theorem optIntLe_total : ∀ a b, (optIntLe a b || optIntLe b a) = true := by
  intro a b
  cases a <;> cases b <;> simp_all [optIntLe]
  omega

theorem nRecLe_trans : ∀ a b c, nRecLe a b = true → nRecLe b c = true →
    nRecLe a c = true := by
  intro a b c hab hbc
  simp only [nRecLe, Bool.or_eq_true, Bool.and_eq_true, decide_eq_true_eq,
    beq_iff_eq] at *
  rcases hab with h1 | ⟨h1, h1'⟩ <;> rcases hbc with h2 | ⟨h2, h2'⟩
  · exact Or.inl (Nat.lt_trans h1 h2)
  · exact Or.inl (h2 ▸ h1)
  · exact Or.inl (h1 ▸ h2)
  · exact Or.inr ⟨h1.trans h2, optIntLe_trans _ _ _ h1' h2'⟩

theorem nRecLe_total : ∀ a b, (nRecLe a b || nRecLe b a) = true := by
  intro a b
  simp only [nRecLe, Bool.or_eq_true, Bool.and_eq_true, decide_eq_true_eq,
    beq_iff_eq]
  rcases Nat.lt_trichotomy (nTypeRank a.otype) (nTypeRank b.otype) with h | h | h
  · exact Or.inl (Or.inl h)
  · have := optIntLe_total a.strike b.strike
    simp only [Bool.or_eq_true] at this
    rcases this with h' | h'
    · exact Or.inl (Or.inr ⟨h, h'⟩)
    · exact Or.inr (Or.inr ⟨h.symm, h'⟩)
  · exact Or.inr (Or.inl h)

/-! ### Presenter (`plotting_utils.py`, `generate_nifty_plots`)

`df.groupby(Type)[Open_Interest].sum()` sums the open-interest column
per type with pandas' `skipna` behaviour (a NaN contributes 0, and an
all-NaN group sums to 0); a type appears in the grouped series exactly
when some row has that type.
-/

/-- The contribution of one row to an open-interest sum. -/
def oiOf (r : NRecord) : Int := r.openInterest.getD 0

/-- Summed open interest of the rows of one type. -/
def oiSum (t : NType) (rs : List NRecord) : Int :=
  ((rs.filter (fun r => r.otype == t)).map oiOf).sum

/-- Whether the grouped series has an entry for type `t`. -/
def hasType (t : NType) (rs : List NRecord) : Bool :=
  rs.any (fun r => r.otype == t)

/-- The grouped open-interest series, keys in pandas' sorted order
(`CE` before `PE`), listing only the types that occur. -/
def oi_summary (rs : List NRecord) : List (NType × Int) :=
  (if hasType NType.CE rs then [(NType.CE, oiSum NType.CE rs)] else []) ++
    (if hasType NType.PE rs then [(NType.PE, oiSum NType.PE rs)] else [])

/-- The put-call ratio as rendered by `generate_nifty_plots`: drawn only
when the grouped series has a `PE` entry, a `CE` entry, and the CE sum
is positive; otherwise nothing is rendered (`none`). -/
def pcRatioOf (rs : List NRecord) : Option ℚ :=
  if hasType NType.PE rs && hasType NType.CE rs && decide (0 < oiSum NType.CE rs)
  then some ((oiSum NType.PE rs : ℚ) / (oiSum NType.CE rs : ℚ))
  else none

/-! Top strikes by volume: `df.groupby(Strike)[Volume].sum().nlargest(20)`.
Generic in the record type and the key type: `groupby` sorts the distinct
keys ascending, sums the volume per key, and `nlargest` reorders by
summed volume descending (stably) and keeps the first `n`. -/

/-- Summed volume of the rows with strike key `s`. -/
def sumVolAt [DecidableEq β] (strike : α → β) (vol : α → Int)
    (rs : List α) (s : β) : Int :=
  ((rs.filter (fun r => decide (strike r = s))).map vol).sum

/-- The `groupby(Strike)` series: distinct keys ascending with their sums. -/
def strikeGroups [DecidableEq β] (kle : β → β → Bool) (strike : α → β)
    (vol : α → Int) (rs : List α) : List (β × Int) :=
  (sortOrd kle (rs.map strike).dedup).map (fun s => (s, sumVolAt strike vol rs s))

/-- Descending comparison on summed volume, used by `nlargest`. -/
def volGe (a b : β × Int) : Bool := decide (b.2 ≤ a.2)

/-- `groupby(Strike)[Volume].sum().nlargest(n)`, keeping the strike keys. -/
def topStrikesByVolume [DecidableEq β] (kle : β → β → Bool) (strike : α → β)
    (vol : α → Int) (n : Nat) (rs : List α) : List β :=
  ((sortOrd volGe (strikeGroups kle strike vol rs)).take n).map Prod.fst

/-- The strike key of a US record, as grouped by `generate_us_plots`. -/
def usStrikeKey (r : USRecord) : Int := r.strike

/-- The volume of a US record. -/
def usVolOf (r : USRecord) : Int := r.volume

/-- The strike key of a NIFTY record, as grouped by `generate_nifty_plots`. -/
def nStrikeKey (r : NRecord) : Option Int := r.strike

/-- The volume of a NIFTY record (NaN summing as 0). -/
def nVolOf (r : NRecord) : Int := r.volume.getD 0

/-! ### Fetcher (`fetch_options_chain`)

The external provider is an oracle: `expirations = none` models an
exception while listing expiration dates, `chainAt e = none` models an
exception while requesting the chain for expiration `e`, and a
successful request yields the calls and puts tables.
-/

structure TickerEnv where
  expirations : Option (List String)
  chainAt : String → Option (List USRow × List USRow)

/-- `fetch_options_chain`: returns `None` when listing fails or yields
an empty (falsy) list; otherwise requests the chain of the first listed
expiration once, returning `None` on failure and the payload dict on
success. -/
def fetch_options_chain (env : TickerEnv) (symbol : String) (now : Int) :
    Option OptionsData :=
  match env.expirations with
  | none => none
  | some [] => none
  | some (e :: _) =>
    match env.chainAt e with
    | none => none
    | some cp =>
      some { symbol := symbol
             expirationDate := e
             calls := some cp.1
             puts := some cp.2
             timestamp := now }

/-! ### CSV export (`streamlit_app.py`)

`filtered_df.to_csv(index=False)` writes a header line followed by one
line per record, cells comma-separated, an absent numeric value as an
empty cell.  We model the character stream as `List Char` and give a
parser (split lines on the newline, cells on the comma, read numbers
back) to state the round trip.
-/

/-- The decimal digit character for `d < 10`. -/
def digitChar (d : Nat) : Char := Char.ofNat (48 + d)

/-- Decimal rendering of a natural number, fuel-recursive so that the
kernel can evaluate it (`renderNat` supplies enough fuel). -/
def renderNatFuel : Nat → Nat → List Char
  | 0, _ => []
  | fuel + 1, n =>
    if n < 10 then [digitChar n]
    else renderNatFuel fuel (n / 10) ++ [digitChar (n % 10)]

def renderNat (n : Nat) : List Char := renderNatFuel (n + 1) n

def renderInt : Int → List Char
  | Int.ofNat n => renderNat n
  | Int.negSucc n => '-' :: renderNat (n + 1)

def isDigit (c : Char) : Bool := decide (48 ≤ c.toNat) && decide (c.toNat ≤ 57)

/-- Accumulate one decimal digit. -/
def digitStep (a : Nat) (c : Char) : Nat := 10 * a + (c.toNat - 48)

/-- Read a non-empty all-digit cell as a natural number. -/
def parseNat (cs : List Char) : Option Nat :=
  if cs = [] then none
  else if cs.all isDigit
  then some (cs.foldl digitStep 0)
  else none

def parseInt (cs : List Char) : Option Int :=
  match cs with
  | [] => none
  | c :: rest =>
    if c = '-' then (parseNat rest).map (fun n => -(n : Int))
    else (parseNat cs).map (fun n => (n : Int))

/-- An absent value is written as an empty cell (pandas renders NaN as
nothing); a present value is written in decimal. -/
def renderOptInt : Option Int → List Char
  | none => []
  | some i => renderInt i

def parseOptInt (cs : List Char) : Option (Option Int) :=
  match cs with
  | [] => some none
  | _ :: _ => (parseInt cs).map some

def renderNType : NType → List Char
  | NType.CE => ['C', 'E']
  | NType.PE => ['P', 'E']

def parseNType (cs : List Char) : Option NType :=
  if cs = ['C', 'E'] then some NType.CE
  else if cs = ['P', 'E'] then some NType.PE
  else none

/-- Split a character stream at a separator; inverse of
`List.intercalate [sep]` on separator-free groups. -/
def splitOnSep (sep : Char) : List Char → List (List Char)
  | [] => [[]]
  | c :: rest =>
    match splitOnSep sep rest with
    | [] => [[]]
    | g :: gs => if c = sep then [] :: g :: gs else (c :: g) :: gs

/-- The cells of one data row, in the column order of the NIFTY frame. -/
def rowCells (r : NRecord) : List (List Char) :=
  [r.symbol.toList, renderNType r.otype, renderOptInt r.strike,
    renderOptInt r.openInterest, renderOptInt r.changeInOI,
    renderOptInt r.volume, renderOptInt r.iv, renderOptInt r.lastPrice,
    renderOptInt r.underlying, renderOptInt r.bid, renderOptInt r.ask,
    renderInt r.timestamp]

/-- The header cells: exactly the NIFTY frame's column set, in order. -/
def headerCells : List (List Char) :=
  ["Symbol".toList, "Type".toList, "Strike".toList, "Open_Interest".toList,
    "Change_in_OI".toList, "Volume".toList, "IV".toList, "Last_Price".toList,
    "Underlying".toList, "Bid".toList, "Ask".toList, "Timestamp".toList]

/-- Join groups with a single separator character between them. -/
def joinSep (sep : Char) : List (List Char) → List Char
  | [] => []
  | [g] => g
  | g :: gs => g ++ sep :: joinSep sep gs

def joinComma (cells : List (List Char)) : List Char :=
  joinSep ',' cells

/-- `to_csv(index=False)`: header line then one line per record. -/
def to_csv (rs : List NRecord) : List Char :=
  joinSep '\n' ((headerCells :: rs.map rowCells).map joinComma)

/-- Rebuild one record from the twelve cells of a data row. -/
def parseRow (cells : List (List Char)) : Option NRecord :=
  match cells with
  | [c1, c2, c3, c4, c5, c6, c7, c8, c9, c10, c11, c12] =>
    match parseNType c2, parseOptInt c3, parseOptInt c4, parseOptInt c5,
        parseOptInt c6, parseOptInt c7, parseOptInt c8, parseOptInt c9,
        parseOptInt c10, parseOptInt c11, parseInt c12 with
    | some t, some st, some oi, some ch, some vo, some iv, some lp,
        some un, some bi, some ak, some ts =>
      some { symbol := String.mk c1, otype := t, strike := st,
             openInterest := oi, changeInOI := ch, volume := vo, iv := iv,
             lastPrice := lp, underlying := un, bid := bi, ask := ak,
             timestamp := ts }
    | _, _, _, _, _, _, _, _, _, _, _ => none
  | _ => none

def seqOption : List (Option α) → Option (List α)
  | [] => some []
  | o :: os =>
    match o with
    | none => none
    | some a =>
      match seqOption os with
      | none => none
      | some l => some (a :: l)

/-- Parse a CSV character stream: split into lines, check the header,
then rebuild each record from its comma-separated cells. -/
def parse_csv (cs : List Char) : Option (List NRecord) :=
  match splitOnSep '\n' cs with
  | [] => none
  | h :: rows =>
    if h = joinComma headerCells
    then seqOption (rows.map (fun line => parseRow (splitOnSep ',' line)))
    else none

/-! ### Claim theorems -/

theorem usRecLe_put_put {a b : USRecord} (h : usRecLe a b = true)
    (ha : a.otype = UType.Put) : b.otype = UType.Put := by
  cases hb : b.otype <;>
    simp_all [usRecLe, uTypeRank]

theorem usRecLe_strike {a b : USRecord} (h : usRecLe a b = true)
    (ht : a.otype = b.otype) : a.strike ≤ b.strike := by
  simp only [usRecLe, ht, Bool.or_eq_true, Bool.and_eq_true, decide_eq_true_eq,
    beq_iff_eq] at h
  omega

/-- C1: for a payload with a calls table of `k` rows and a puts table of
`m` rows, `process_options_data` returns `k + m` records, the calls-table
records tagged `Call` and the puts-table records tagged `Put`, every
missing field defaulted to `0`, and the output sorted so that all `Call`
records precede all `Put` records with strikes ascending within a type. -/
theorem c1_flatten_equity (d : OptionsData) (cs ps : List USRow)
    (hc : d.calls = some cs) (hp : d.puts = some ps) :
    ∃ out, process_options_data (some d) = some out ∧
      out.length = cs.length + ps.length ∧
      out.Perm (cs.map (usRecOfRow d.symbol d.expirationDate UType.Call) ++
        ps.map (usRecOfRow d.symbol d.expirationDate UType.Put)) ∧
      (∀ r ∈ cs.map (usRecOfRow d.symbol d.expirationDate UType.Call),
        r.otype = UType.Call) ∧
      (∀ r ∈ ps.map (usRecOfRow d.symbol d.expirationDate UType.Put),
        r.otype = UType.Put) ∧
      (∀ (s e : String) (t : UType) (row : USRow),
        (usRecOfRow s e t row).strike = row.strike.getD 0 ∧
        (usRecOfRow s e t row).lastPrice = row.lastPrice.getD 0 ∧
        (usRecOfRow s e t row).bid = row.bid.getD 0 ∧
        (usRecOfRow s e t row).ask = row.ask.getD 0 ∧
        (usRecOfRow s e t row).volume = row.volume.getD 0 ∧
        (usRecOfRow s e t row).openInterest = row.openInterest.getD 0 ∧
        (usRecOfRow s e t row).impliedVolatility = row.impliedVolatility.getD 0) ∧
      out.Pairwise (fun a b => a.otype = UType.Put → b.otype = UType.Put) ∧
      out.Pairwise (fun a b => a.otype = b.otype → a.strike ≤ b.strike) := by
  simp only [process_options_data, hc, hp, Option.getD_some]
  refine ⟨_, rfl, ?_, ?_, ?_, ?_, ?_, ?_, ?_⟩
  · rw [length_sortOrd, List.length_append, List.length_map, List.length_map]
  · exact perm_sortOrd _ _
  · intro r hr
    rcases List.mem_map.mp hr with ⟨row, _, rfl⟩
    rfl
  · intro r hr
    rcases List.mem_map.mp hr with ⟨row, _, rfl⟩
    rfl
  · intro s e t row
    exact ⟨rfl, rfl, rfl, rfl, rfl, rfl, rfl⟩
  · exact (sorted_sortOrd usRecLe_trans usRecLe_total _).imp
      (fun h ha => usRecLe_put_put h ha)
  · exact (sorted_sortOrd usRecLe_trans usRecLe_total _).imp
      (fun h ht => usRecLe_strike h ht)

/-- Witness for C1 at a concrete two-row payload. -/
theorem c1_flatten_equity_witness :
    ∃ out, process_options_data
        (some { symbol := "AAPL", expirationDate := "2024-01-19",
                calls := some [{ strike := some 100 }],
                puts := some [{ strike := some 95 }, {}],
                timestamp := 7 }) = some out ∧
      out.length = 1 + 2 := by
  rcases c1_flatten_equity
      { symbol := "AAPL", expirationDate := "2024-01-19",
        calls := some [{ strike := some 100 }],
        puts := some [{ strike := some 95 }, {}],
        timestamp := 7 }
      [{ strike := some 100 }] [{ strike := some 95 }, {}] rfl rfl with
    ⟨out, hout, hlen, _⟩
  exact ⟨out, hout, hlen⟩

/-- C2: in an index payload, a strike entry with a CE sub-object and no
PE sub-object contributes exactly one record (the CE record, at that
entry's strike, with no PE ghost); every entry contributes one record
per present sub-object (hence between zero and two), and a numeric field
absent from a present sub-object is carried as `none`, not `0`. -/
theorem c2_flatten_index (now : Int) (d : NseData) (items : List NseItem)
    (hd : d.recordsData = some items) (i : NseItem) (_hi : i ∈ items)
    (c : NseSide) (hce : i.CE = some c) (hpe : i.PE = none) :
    ∃ out, process_nifty_options_data now (some d) = some out ∧
      out.Perm (items.flatMap (niftyItemRecords now)) ∧
      niftyItemRecords now i = [ceRec now i.strikePrice c] ∧
      (ceRec now i.strikePrice c).strike = i.strikePrice ∧
      (ceRec now i.strikePrice c).otype = NType.CE ∧
      (∀ j : NseItem, (niftyItemRecords now j).length =
        (if j.CE.isSome then 1 else 0) + (if j.PE.isSome then 1 else 0)) ∧
      (∀ j : NseItem, (niftyItemRecords now j).length ≤ 2) ∧
      (∀ (t : Int) (s : Option Int) (sd : NseSide),
        (ceRec t s sd).openInterest = sd.openInterest ∧
        (ceRec t s sd).changeInOI = sd.changeinOpenInterest ∧
        (ceRec t s sd).volume = sd.totalTradedVolume ∧
        (ceRec t s sd).iv = sd.impliedVolatility ∧
        (ceRec t s sd).lastPrice = sd.lastPrice ∧
        (ceRec t s sd).underlying = sd.underlyingValue ∧
        (ceRec t s sd).bid = sd.bidprice ∧
        (ceRec t s sd).ask = sd.askPrice) ∧
      (∀ (t : Int) (s : Option Int) (sd : NseSide),
        (peRec t s sd).openInterest = sd.openInterest ∧
        (peRec t s sd).changeInOI = sd.changeinOpenInterest ∧
        (peRec t s sd).volume = sd.totalTradedVolume ∧
        (peRec t s sd).iv = sd.impliedVolatility ∧
        (peRec t s sd).lastPrice = sd.lastPrice ∧
        (peRec t s sd).underlying = sd.underlyingValue ∧
        (peRec t s sd).bid = sd.bidprice ∧
        (peRec t s sd).ask = sd.askPrice) := by
  simp only [process_nifty_options_data, hd, Option.getD_some]
  refine ⟨_, rfl, perm_sortOrd _ _, ?_, rfl, rfl, ?_, ?_, ?_, ?_⟩
  · simp [niftyItemRecords, hce, hpe]
  · intro j
    cases hjc : j.CE <;> cases hjp : j.PE <;>
      simp [niftyItemRecords, hjc, hjp]
  · intro j
    cases hjc : j.CE <;> cases hjp : j.PE <;>
      simp [niftyItemRecords, hjc, hjp]
  · intro t s sd
    exact ⟨rfl, rfl, rfl, rfl, rfl, rfl, rfl, rfl⟩
  · intro t s sd
    exact ⟨rfl, rfl, rfl, rfl, rfl, rfl, rfl, rfl⟩

/-- Witness for C2 at a one-entry payload whose only sub-object is a CE
side with every numeric field absent. -/
theorem c2_flatten_index_witness :
    ∃ out, process_nifty_options_data 3
        (some { recordsData := some [{ strikePrice := some 100, CE := some {} }] }) =
        some out ∧
      niftyItemRecords 3 { strikePrice := some 100, CE := some {} } =
        [ceRec 3 (some 100) {}] := by
  rcases c2_flatten_index 3 { recordsData := some [{ strikePrice := some 100, CE := some {} }] }
      [{ strikePrice := some 100, CE := some {} }] rfl
      { strikePrice := some 100, CE := some {} } (by simp) {} rfl rfl with
    ⟨out, hout, _, hone, _⟩
  exact ⟨out, hout, hone⟩

/-- C10: both shapers map a null (falsy) payload to `None`, but map a
present payload with zero option rows (empty calls and puts tables, or
an empty records list) to an empty table, which is not `None`. -/
theorem c10_null_vs_empty :
    process_options_data none = none ∧
    (∀ now : Int, process_nifty_options_data now none = none) ∧
    (∀ d : OptionsData, d.calls = some [] → d.puts = some [] →
      process_options_data (some d) = some [] ∧
        process_options_data (some d) ≠ none) ∧
    (∀ (now : Int) (d : NseData), d.recordsData = some [] →
      process_nifty_options_data now (some d) = some [] ∧
        process_nifty_options_data now (some d) ≠ none) := by
  refine ⟨rfl, fun _ => rfl, ?_, ?_⟩
  · intro d hc hp
    simp [process_options_data, hc, hp, sortOrd]
  · intro now d hd
    simp [process_nifty_options_data, hd, sortOrd]

/-- Witness for C10 at concrete empty payloads. -/
theorem c10_null_vs_empty_witness :
    process_options_data
        (some { symbol := "SPY", expirationDate := "2024-01-19",
                calls := some [], puts := some [], timestamp := 0 }) = some [] ∧
      process_nifty_options_data 0 (some { recordsData := some [] }) = some [] :=
  ⟨(c10_null_vs_empty.2.2.1 _ rfl rfl).1, (c10_null_vs_empty.2.2.2 0 _ rfl).1⟩

/-- The CE row of the spec's worked example: strike 150, volume 1000,
open interest 500. -/
def rc9a : NRecord :=
  { symbol := "NIFTY", otype := NType.CE, strike := some 150,
    openInterest := some 500, changeInOI := none, volume := some 1000,
    iv := none, lastPrice := none, underlying := none, bid := none,
    ask := none, timestamp := 0 }

/-- The PE row of the spec's worked example: strike 150, volume 800,
open interest 300. -/
def rc9b : NRecord :=
  { symbol := "NIFTY", otype := NType.PE, strike := some 150,
    openInterest := some 300, changeInOI := none, volume := some 800,
    iv := none, lastPrice := none, underlying := none, bid := none,
    ask := none, timestamp := 0 }

/-- C9: on the two records of the worked example the grouped
open-interest summary is CE 500, PE 300, and the put-call ratio is
300/500 = 3/5 = 0.6. -/
theorem c9_worked_example :
    oi_summary [rc9a, rc9b] = [(NType.CE, 500), (NType.PE, 300)] ∧
      pcRatioOf [rc9a, rc9b] = some ((3 : ℚ) / 5) := by
  constructor
  · decide
  · have h1 : hasType NType.PE [rc9a, rc9b] = true := by decide
    have h2 : hasType NType.CE [rc9a, rc9b] = true := by decide
    have h3 : oiSum NType.CE [rc9a, rc9b] = 500 := by decide
    have h4 : oiSum NType.PE [rc9a, rc9b] = 300 := by decide
    rw [pcRatioOf, h1, h2, h3, h4]
    norm_num

/-- C3 counterexample: a table holding a single CE record with open
interest 500.  The call-side sum is present and nonzero, so the claim
says the ratio is defined; the code requires a PE entry in the grouped
series as well, so it renders nothing. -/
theorem c3_counterexample :
    ¬ (pcRatioOf [rc9a] = none ↔
        (hasType NType.CE [rc9a] = false ∨ oiSum NType.CE [rc9a] = 0)) := by
  intro h
  have h1 : pcRatioOf [rc9a] = none := by
    have : (hasType NType.PE [rc9a] && hasType NType.CE [rc9a] &&
        decide (0 < oiSum NType.CE [rc9a])) = false := by decide
    rw [pcRatioOf, this]
    simp
  have h2 := h.mp h1
  revert h2
  decide

/-- C3 amended: the ratio is undefined exactly when the put-side group
is absent, the call-side group is absent, or the call-side
open-interest sum is not positive; otherwise it equals
put-sum / call-sum, which is non-negative whenever every record's open
interest is non-negative. -/
theorem c3_ratio_amended (rs : List NRecord) :
    (pcRatioOf rs = none ↔
      (hasType NType.PE rs = false ∨ hasType NType.CE rs = false ∨
        oiSum NType.CE rs ≤ 0)) ∧
    (∀ q, pcRatioOf rs = some q →
      q = (oiSum NType.PE rs : ℚ) / (oiSum NType.CE rs : ℚ)) ∧
    ((∀ r ∈ rs, 0 ≤ oiOf r) → ∀ q, pcRatioOf rs = some q → 0 ≤ q) := by
  by_cases hcond : (hasType NType.PE rs && hasType NType.CE rs &&
      decide (0 < oiSum NType.CE rs)) = true
  · have hnone : ¬ (hasType NType.PE rs = false ∨ hasType NType.CE rs = false ∨
        oiSum NType.CE rs ≤ 0) := by
      simp only [Bool.and_eq_true, decide_eq_true_eq] at hcond
      push_neg
      refine ⟨?_, ?_, ?_⟩
      · simp [hcond.1.1]
      · simp [hcond.1.2]
      · exact hcond.2
    refine ⟨?_, ?_, ?_⟩
    · rw [pcRatioOf, if_pos hcond]
      simp [hnone]
    · intro q hq
      rw [pcRatioOf, if_pos hcond] at hq
      exact (Option.some_injective _ hq).symm
    · intro hnn q hq
      rw [pcRatioOf, if_pos hcond] at hq
      rw [← Option.some_injective _ hq]
      have hce : (0 : ℚ) < (oiSum NType.CE rs : ℚ) := by
        simp only [Bool.and_eq_true, decide_eq_true_eq] at hcond
        exact_mod_cast hcond.2
      have hpe : (0 : ℚ) ≤ (oiSum NType.PE rs : ℚ) := by
        have : (0 : ℤ) ≤ oiSum NType.PE rs := by
          apply List.sum_nonneg
          intro x hx
          rcases List.mem_map.mp hx with ⟨r, hr, rfl⟩
          exact hnn r (List.mem_of_mem_filter hr)
        exact_mod_cast this
      exact div_nonneg hpe hce.le
  · have heq : pcRatioOf rs = none := by
      rw [pcRatioOf, if_neg hcond]
    refine ⟨?_, ?_, ?_⟩
    · simp only [heq, true_iff]
      simp only [Bool.and_eq_true, decide_eq_true_eq, not_and] at hcond
      by_cases h1 : hasType NType.PE rs = true
      · by_cases h2 : hasType NType.CE rs = true
        · exact Or.inr (Or.inr (by have := hcond ⟨h1, h2⟩; omega))
        · exact Or.inr (Or.inl (by simpa using h2))
      · exact Or.inl (by simpa using h1)
    · intro q hq
      rw [heq] at hq
      exact absurd hq (by simp)
    · intro _ q hq
      rw [heq] at hq
      exact absurd hq (by simp)

/-- Witness for C3 (amended) on the worked-example table, where the
ratio is defined and non-negative. -/
theorem c3_ratio_amended_witness :
    ∃ q, pcRatioOf [rc9a, rc9b] = some q ∧ 0 ≤ q := by
  refine ⟨(3 : ℚ) / 5, ?_, by norm_num⟩
  have h := (c3_ratio_amended [rc9a, rc9b]).1
  have hnot : ¬ (hasType NType.PE [rc9a, rc9b] = false ∨
      hasType NType.CE [rc9a, rc9b] = false ∨
      oiSum NType.CE [rc9a, rc9b] ≤ 0) := by decide
  cases hval : pcRatioOf [rc9a, rc9b] with
  | none => exact absurd (h.mp hval) hnot
  | some q =>
    have hq := (c3_ratio_amended [rc9a, rc9b]).2.1 q hval
    have h3 : oiSum NType.CE [rc9a, rc9b] = 500 := by decide
    have h4 : oiSum NType.PE [rc9a, rc9b] = 300 := by decide
    rw [h3, h4] at hq
    rw [hq]
    norm_num

/-- C4: the top-strikes-by-volume selection (group by strike, sum the
volume, keep the 20 largest) returns at most 20 strikes, and every
returned strike is the strike key of some input record.  Stated for any
record type and strike-key type, covering both the US and the NIFTY
volume charts. -/
theorem c4_top_strikes {α β : Type} [DecidableEq β] (kle : β → β → Bool)
    (strike : α → β) (vol : α → Int) (rs : List α) :
    (topStrikesByVolume kle strike vol 20 rs).length ≤ 20 ∧
      ∀ s ∈ topStrikesByVolume kle strike vol 20 rs, ∃ r ∈ rs, strike r = s := by
  constructor
  · rw [topStrikesByVolume, List.length_map]
    exact List.length_take_le 20 _
  · intro s hs
    rcases List.mem_map.mp hs with ⟨p, hp, rfl⟩
    have hp2 : p ∈ sortOrd volGe (strikeGroups kle strike vol rs) :=
      List.take_subset _ _ hp
    have hp3 : p ∈ strikeGroups kle strike vol rs := mem_sortOrd.mp hp2
    rcases List.mem_map.mp hp3 with ⟨s', hs', rfl⟩
    have hs'2 : s' ∈ (rs.map strike).dedup := mem_sortOrd.mp hs'
    rcases List.mem_map.mp (List.mem_dedup.mp hs'2) with ⟨r, hr, rfl⟩
    exact ⟨r, hr, rfl⟩

/-- Witness for C4 on the worked-example table: at most 20 strikes come
back and the strike 150 that does come back belongs to an input record. -/
theorem c4_top_strikes_witness :
    (topStrikesByVolume optIntLe nStrikeKey nVolOf 20 [rc9a, rc9b]).length ≤ 20 ∧
      ∃ r ∈ [rc9a, rc9b], nStrikeKey r = some 150 := by
  refine ⟨(c4_top_strikes optIntLe nStrikeKey nVolOf [rc9a, rc9b]).1, ?_⟩
  exact (c4_top_strikes optIntLe nStrikeKey nVolOf [rc9a, rc9b]).2 (some 150) (by decide)

/-- C6: `fetch_options_chain` returns `None` when listing the expiration
dates fails or yields none; otherwise it selects the first listed date —
the earliest, when the provider lists them ascending — requests that
single expiration's chain (returning `None` if that request fails, with
no retry), and packages the calls and puts tables with the symbol and
the selected date.  The result depends only on the listing and on the
chain at the one selected date. -/
theorem c6_nearest_expiration (env : TickerEnv) (symbol : String) (now : Int) :
    (env.expirations = none → fetch_options_chain env symbol now = none) ∧
    (env.expirations = some [] → fetch_options_chain env symbol now = none) ∧
    (∀ e es, env.expirations = some (e :: es) →
      (env.chainAt e = none → fetch_options_chain env symbol now = none) ∧
      (∀ cp, env.chainAt e = some cp →
        fetch_options_chain env symbol now =
          some { symbol := symbol, expirationDate := e, calls := some cp.1,
                 puts := some cp.2, timestamp := now }) ∧
      (List.Pairwise (fun x y : String => x ≤ y) (e :: es) →
        ∀ x ∈ e :: es, e ≤ x)) ∧
    (∀ env' : TickerEnv, env'.expirations = env.expirations →
      (∀ e es, env.expirations = some (e :: es) → env'.chainAt e = env.chainAt e) →
      fetch_options_chain env' symbol now = fetch_options_chain env symbol now) := by
  refine ⟨?_, ?_, ?_, ?_⟩
  · intro h
    simp [fetch_options_chain, h]
  · intro h
    simp [fetch_options_chain, h]
  · intro e es he
    refine ⟨?_, ?_, ?_⟩
    · intro h
      simp [fetch_options_chain, he, h]
    · intro cp h
      simp [fetch_options_chain, he, h]
    · intro hsorted x hx
      rcases List.mem_cons.mp hx with rfl | hx
      · exact le_refl x
      · exact (List.pairwise_cons.mp hsorted).1 x hx
  · intro env' hexp hchain
    rcases henv : env.expirations with _ | es
    · simp [fetch_options_chain, henv, hexp.trans henv]
    · cases es with
      | nil => simp [fetch_options_chain, henv, hexp.trans henv]
      | cons e rest =>
        have h1 : env'.expirations = some (e :: rest) := hexp.trans henv
        have h2 : env'.chainAt e = env.chainAt e := hchain e rest henv
        simp [fetch_options_chain, henv, h1, h2]

/-- Witness for C6: a provider listing two ascending dates whose first
chain request succeeds with one call row and no put rows. -/
theorem c6_nearest_expiration_witness :
    fetch_options_chain
        { expirations := some ["2024-01-19", "2024-02-16"],
          chainAt := fun e =>
            if e = "2024-01-19" then some ([{ strike := some 100 }], []) else none }
        "AAPL" 5 =
      some { symbol := "AAPL", expirationDate := "2024-01-19",
             calls := some [{ strike := some 100 }], puts := some [],
             timestamp := 5 } := by
  have h := (c6_nearest_expiration
      { expirations := some ["2024-01-19", "2024-02-16"],
        chainAt := fun e =>
          if e = "2024-01-19" then some ([{ strike := some 100 }], []) else none }
      "AAPL" 5).2.2.1 "2024-01-19" ["2024-02-16"] rfl
  exact (h.2.1 ([{ strike := some 100 }], []) (by simp))

theorem map_insertOrd {f : α → α} {le : α → α → Bool}
    (hf : ∀ a b, le (f a) (f b) = le a b) (a : α) (l : List α) :
    (insertOrd le a l).map f = insertOrd le (f a) (l.map f) := by
  induction l with
  | nil => rfl
  | cons b bs ih =>
    by_cases h : le a b = true
    · simp [insertOrd, h, hf]
    · simp only [insertOrd, h, if_neg, Bool.not_eq_true, List.map_cons,
        hf a b, ih]

theorem map_sortOrd {f : α → α} {le : α → α → Bool}
    (hf : ∀ a b, le (f a) (f b) = le a b) (l : List α) :
    (sortOrd le l).map f = sortOrd le (l.map f) := by
  induction l with
  | nil => rfl
  | cons a as ih => simp [sortOrd, map_insertOrd hf, ih]

/-- The record with the fetch-time `Timestamp` column cleared. -/
def eraseTs (r : NRecord) : NRecord := { r with timestamp := 0 }

theorem nRecLe_eraseTs (a b : NRecord) :
    nRecLe (eraseTs a) (eraseTs b) = nRecLe a b := rfl

theorem niftyItemRecords_eraseTs (t : Int) (i : NseItem) :
    (niftyItemRecords t i).map eraseTs = niftyItemRecords 0 i := by
  cases hc : i.CE <;> cases hp : i.PE <;>
    simp [niftyItemRecords, hc, hp, eraseTs, ceRec, peRec]

/-- C5 counterexample: on a one-entry payload, two runs of
`process_nifty_options_data` at clock readings 0 and 1 produce
different outputs (the `Timestamp` column differs), so the index shaper
is not pure in its payload alone. -/
theorem c5_counterexample :
    process_nifty_options_data 0
        (some { recordsData := some [{ strikePrice := some 100,
                                       CE := some { openInterest := some 500 } }] }) ≠
      process_nifty_options_data 1
        (some { recordsData := some [{ strikePrice := some 100,
                                       CE := some { openInterest := some 500 } }] }) := by
  decide

/-- C5 amended: both shapers are pure given payload and clock reading;
the index shaper's two runs agree everywhere except the `Timestamp`
column; both succeed on every present payload; and an absent optional
sub-object (CE or PE side, or a whole calls table) drops only that
sub-object's records, never the rest of the entry or the conversion. -/
theorem c5_purity_amended :
    (∀ (t1 t2 : Int) (data : Option NseData),
      (process_nifty_options_data t1 data).map (List.map eraseTs) =
        (process_nifty_options_data t2 data).map (List.map eraseTs)) ∧
    (∀ d : OptionsData, ∃ out, process_options_data (some d) = some out) ∧
    (∀ (t : Int) (d : NseData), ∃ out,
      process_nifty_options_data t (some d) = some out) ∧
    (∀ (t : Int) (i : NseItem),
      niftyItemRecords t { i with CE := none } =
        (niftyItemRecords t i).filter (fun r => r.otype == NType.PE) ∧
      niftyItemRecords t { i with PE := none } =
        (niftyItemRecords t i).filter (fun r => r.otype == NType.CE)) ∧
    (∀ (d : OptionsData) (ps : List USRow), d.puts = some ps →
      process_options_data (some { d with calls := none }) =
        some (sortOrd usRecLe
          (ps.map (usRecOfRow d.symbol d.expirationDate UType.Put)))) := by
  refine ⟨?_, ?_, ?_, ?_, ?_⟩
  · intro t1 t2 data
    cases data with
    | none => rfl
    | some d =>
      simp only [process_nifty_options_data, Option.map_some']
      have key : ∀ t : Int,
          (sortOrd nRecLe ((d.recordsData.getD []).flatMap
            (niftyItemRecords t))).map eraseTs =
          sortOrd nRecLe ((d.recordsData.getD []).flatMap
            (niftyItemRecords 0)) := by
        intro t
        rw [map_sortOrd (fun a b => nRecLe_eraseTs a b)]
        congr 1
        rw [List.map_flatMap]
        exact List.flatMap_congr (fun i _ => niftyItemRecords_eraseTs t i)
      rw [key t1, key t2]
  · intro d
    exact ⟨_, rfl⟩
  · intro t d
    exact ⟨_, rfl⟩
  · intro t i
    constructor
    · cases hc : i.CE <;> cases hp : i.PE <;>
        simp [niftyItemRecords, hc, hp, ceRec, peRec]
    · cases hc : i.CE <;> cases hp : i.PE <;>
        simp [niftyItemRecords, hc, hp, ceRec, peRec]
  · intro d ps hp
    simp [process_options_data, hp]

/-- Witness for C5 (amended) at a concrete payload and two clock
readings. -/
theorem c5_purity_amended_witness :
    (process_nifty_options_data 0
        (some { recordsData := some [{ strikePrice := some 100,
                                       CE := some { openInterest := some 500 } }] })).map
        (List.map eraseTs) =
      (process_nifty_options_data 1
        (some { recordsData := some [{ strikePrice := some 100,
                                       CE := some { openInterest := some 500 } }] })).map
        (List.map eraseTs) :=
  c5_purity_amended.1 0 1 _

/-- The (Symbol, Type, Strike, Expiration) combination of a US record. -/
def usKey (r : USRecord) : String × UType × Int × String :=
  (r.symbol, r.otype, r.strike, r.expirationDate)

/-- The (Symbol, Type, Strike) combination of an index record. -/
def nKey (r : NRecord) : String × NType × Option Int :=
  (r.symbol, r.otype, r.strike)

/-- A calls row duplicated in the payload. -/
def rowC8 : USRow := { strike := some 100 }

/-- A payload whose calls table lists the same strike twice. -/
def dC8 : OptionsData :=
  { symbol := "AAPL", expirationDate := "2024-01-19",
    calls := some [rowC8, rowC8], puts := some [], timestamp := 0 }

/-- C8 counterexample: on a payload whose calls table repeats a strike,
the shaped table carries two records with the same
(Symbol, Type, Strike, Expiration) combination — the code never
deduplicates, so the claimed uniqueness fails. -/
theorem c8_counterexample :
    process_options_data (some dC8) =
      some [usRecOfRow "AAPL" "2024-01-19" UType.Call rowC8,
            usRecOfRow "AAPL" "2024-01-19" UType.Call rowC8] ∧
      ¬ ([usRecOfRow "AAPL" "2024-01-19" UType.Call rowC8,
          usRecOfRow "AAPL" "2024-01-19" UType.Call rowC8].map usKey).Nodup := by
  constructor
  · decide
  · decide

theorem nKey_niftyItemRecords {now : Int} {i : NseItem}
    {k : String × NType × Option Int}
    (hk : k ∈ (niftyItemRecords now i).map nKey) : k.2.2 = i.strikePrice := by
  cases hc : i.CE <;> cases hp : i.PE <;>
      simp only [niftyItemRecords, hc, hp, List.map_append, List.map_cons,
        List.map_nil, List.mem_append, List.mem_cons, List.not_mem_nil,
        List.nil_append, List.append_nil, or_false, false_or] at hk <;>
    first
      | exact absurd hk (List.not_mem_nil k)
      | (subst hk; rfl)
      | (rcases hk with hk | hk <;> (subst hk; rfl))

theorem nodup_itemKeys (now : Int) (i : NseItem) :
    ((niftyItemRecords now i).map nKey).Nodup := by
  cases hc : i.CE <;> cases hp : i.PE <;>
    simp [niftyItemRecords, hc, hp, nKey, ceRec, peRec]

theorem nodup_flatMap_keys (now : Int) (items : List NseItem)
    (h : (items.map NseItem.strikePrice).Nodup) :
    ((items.flatMap (niftyItemRecords now)).map nKey).Nodup := by
  induction items with
  | nil => simp
  | cons i is ih =>
    simp only [List.map_cons, List.nodup_cons] at h
    simp only [List.flatMap_cons, List.map_append]
    rw [List.nodup_append]
    refine ⟨nodup_itemKeys now i, ih h.2, ?_⟩
    intro k hk1 hk2
    have h1 : k.2.2 = i.strikePrice := nKey_niftyItemRecords hk1
    rw [List.map_flatMap] at hk2
    rcases List.mem_flatMap.mp hk2 with ⟨j, hj, hkj⟩
    have h2 : k.2.2 = j.strikePrice := nKey_niftyItemRecords hkj
    have : i.strikePrice ∈ is.map NseItem.strikePrice := by
      rw [← h1, h2]
      exact List.mem_map.mpr ⟨j, hj, rfl⟩
    exact h.1 this

/-- C8 amended: when every side of the raw payload lists each strike at
most once (distinct strikes in the calls table and in the puts table;
distinct strike prices across index entries), the
(Symbol, Type, Strike, Expiration) — for the index path
(Symbol, Type, Strike) — combination is unique across the records of
one fetch-and-shape pass. -/
theorem c8_key_uniqueness_amended :
    (∀ (d : OptionsData) (cs ps : List USRow), d.calls = some cs →
      d.puts = some ps →
      (cs.map (fun r => r.strike.getD 0)).Nodup →
      (ps.map (fun r => r.strike.getD 0)).Nodup →
      ∀ out, process_options_data (some d) = some out →
        (out.map usKey).Nodup) ∧
    (∀ (now : Int) (d : NseData) (items : List NseItem),
      d.recordsData = some items → (items.map NseItem.strikePrice).Nodup →
      ∀ out, process_nifty_options_data now (some d) = some out →
        (out.map nKey).Nodup) := by
  constructor
  · intro d cs ps hc hp hnc hnp out hout
    simp only [process_options_data, hc, hp, Option.getD_some,
      Option.some.injEq] at hout
    subst hout
    rw [((perm_sortOrd usRecLe _).map usKey).nodup_iff, List.map_append,
      List.nodup_append]
    refine ⟨?_, ?_, ?_⟩
    · rw [List.map_map]
      have hcomp : (usKey ∘ usRecOfRow d.symbol d.expirationDate UType.Call) =
          (fun s : Int => (d.symbol, UType.Call, s, d.expirationDate)) ∘
            (fun r : USRow => r.strike.getD 0) := rfl
      rw [hcomp, ← List.map_map]
      exact hnc.map (fun a b hab => by simpa using hab)
    · rw [List.map_map]
      have hcomp : (usKey ∘ usRecOfRow d.symbol d.expirationDate UType.Put) =
          (fun s : Int => (d.symbol, UType.Put, s, d.expirationDate)) ∘
            (fun r : USRow => r.strike.getD 0) := rfl
      rw [hcomp, ← List.map_map]
      exact hnp.map (fun a b hab => by simpa using hab)
    · intro k hkA hkB
      rw [List.map_map] at hkA hkB
      rcases List.mem_map.mp hkA with ⟨r1, _, hk1⟩
      rcases List.mem_map.mp hkB with ⟨r2, _, hk2⟩
      have heq := congrArg (fun p : String × UType × Int × String => p.2.1)
        (hk1.trans hk2.symm)
      simp [usKey, usRecOfRow] at heq
  · intro now d items hd hnd out hout
    simp only [process_nifty_options_data, hd, Option.getD_some,
      Option.some.injEq] at hout
    subst hout
    rw [((perm_sortOrd nRecLe _).map nKey).nodup_iff]
    exact nodup_flatMap_keys now items hnd

/-- Witness for C8 (amended) at a payload with one call row and one put
row at the same strike: the keys still differ by type. -/
theorem c8_key_uniqueness_amended_witness :
    ((sortOrd usRecLe
        (([{ strike := some 100 }] : List USRow).map
            (usRecOfRow "AAPL" "2024-01-19" UType.Call) ++
          (([{ strike := some 100 }] : List USRow).map
            (usRecOfRow "AAPL" "2024-01-19" UType.Put)))).map usKey).Nodup :=
  c8_key_uniqueness_amended.1
    { symbol := "AAPL", expirationDate := "2024-01-19",
      calls := some [{ strike := some 100 }],
      puts := some [{ strike := some 100 }], timestamp := 0 }
    [{ strike := some 100 }] [{ strike := some 100 }] rfl rfl
    (by decide) (by decide) _ rfl

/-! ### Split/join inverses for C7 -/

theorem splitOnSep_ne_nil (sep : Char) (l : List Char) :
    splitOnSep sep l ≠ [] := by
  cases l with
  | nil => simp [splitOnSep]
  | cons c rest =>
    simp only [splitOnSep]
    rcases h : splitOnSep sep rest with _ | ⟨g, gs⟩
    · simp
    · by_cases hc : c = sep <;> simp [hc]

theorem splitOnSep_of_not_mem {sep : Char} {g : List Char} (h : sep ∉ g) :
    splitOnSep sep g = [g] := by
  induction g with
  | nil => rfl
  | cons c rest ih =>
    have hc : c ≠ sep := fun hc => h (hc ▸ List.mem_cons_self c rest)
    have hrest : sep ∉ rest := fun hr => h (List.mem_cons_of_mem c hr)
    simp [splitOnSep, ih hrest, hc]

theorem splitOnSep_append_sep {sep : Char} {g : List Char} (rest : List Char)
    (h : sep ∉ g) :
    splitOnSep sep (g ++ sep :: rest) = g :: splitOnSep sep rest := by
  induction g with
  | nil =>
    simp only [List.nil_append, splitOnSep]
    rcases hr : splitOnSep sep rest with _ | ⟨g0, gs0⟩
    · exact absurd hr (splitOnSep_ne_nil sep rest)
    · simp
  | cons c cg ih =>
    have hc : c ≠ sep := fun hcEq => h (hcEq ▸ List.mem_cons_self c cg)
    have hcg : sep ∉ cg := fun hmem => h (List.mem_cons_of_mem c hmem)
    have key : splitOnSep sep ((c :: cg) ++ sep :: rest) =
        match splitOnSep sep (cg ++ sep :: rest) with
        | [] => [[]]
        | g :: gs => if c = sep then [] :: g :: gs else (c :: g) :: gs := rfl
    rw [key, ih hcg]
    simp [hc]

theorem splitOnSep_joinSep {sep : Char} :
    ∀ gs : List (List Char), (∀ g ∈ gs, sep ∉ g) → gs ≠ [] →
      splitOnSep sep (joinSep sep gs) = gs := by
  intro gs
  induction gs with
  | nil => intro _ h; exact absurd rfl h
  | cons g gs ih =>
    intro hfree _
    cases gs with
    | nil =>
      exact splitOnSep_of_not_mem (hfree g (List.mem_cons_self g []))
    | cons g' gs' =>
      have h1 : joinSep sep (g :: g' :: gs') = g ++ sep :: joinSep sep (g' :: gs') :=
        rfl
      rw [h1, splitOnSep_append_sep _ (hfree g (List.mem_cons_self g _)),
        ih (fun x hx => hfree x (List.mem_cons_of_mem g hx)) (by simp)]

theorem mem_joinSep {sep c : Char} :
    ∀ {gs : List (List Char)}, c ∈ joinSep sep gs →
      c = sep ∨ ∃ g ∈ gs, c ∈ g := by
  intro gs
  induction gs with
  | nil => intro h; exact absurd h (List.not_mem_nil c)
  | cons g gs ih =>
    intro h
    cases gs with
    | nil =>
      exact Or.inr ⟨g, List.mem_cons_self g [], h⟩
    | cons g' gs' =>
      have h1 : joinSep sep (g :: g' :: gs') = g ++ sep :: joinSep sep (g' :: gs') :=
        rfl
      rw [h1] at h
      rcases List.mem_append.mp h with h | h
      · exact Or.inr ⟨g, List.mem_cons_self g _, h⟩
      · rcases List.mem_cons.mp h with h | h
        · exact Or.inl h
        · rcases ih h with h | ⟨g0, hg0, hc0⟩
          · exact Or.inl h
          · exact Or.inr ⟨g0, List.mem_cons_of_mem g hg0, hc0⟩

/-! ### Decimal rendering round trip for C7 -/

theorem digitChar_toNat {d : Nat} (h : d < 10) : (digitChar d).toNat = 48 + d := by
  interval_cases d <;> decide

theorem isDigit_digitChar {d : Nat} (h : d < 10) : isDigit (digitChar d) = true := by
  interval_cases d <;> decide

theorem renderNatFuel_digits :
    ∀ fuel n, n < fuel → ∀ c ∈ renderNatFuel fuel n, ∃ d, d < 10 ∧ c = digitChar d := by
  intro fuel
  induction fuel with
  | zero => intro n h; omega
  | succ f ih =>
    intro n h c hc
    by_cases h10 : n < 10
    · simp only [renderNatFuel, if_pos h10, List.mem_singleton] at hc
      exact ⟨n, h10, hc⟩
    · simp only [renderNatFuel, if_neg h10, List.mem_append,
        List.mem_singleton] at hc
      rcases hc with hc | hc
      · exact ih (n / 10) (by omega) c hc
      · exact ⟨n % 10, by omega, hc⟩

theorem renderNatFuel_ne_nil {fuel n : Nat} (h : 0 < fuel) :
    renderNatFuel fuel n ≠ [] := by
  cases fuel with
  | zero => omega
  | succ f =>
    by_cases h10 : n < 10
    · simp [renderNatFuel, if_pos h10]
    · simp [renderNatFuel, if_neg h10]

theorem renderNatFuel_foldl :
    ∀ fuel n a, n < fuel →
      (renderNatFuel fuel n).foldl digitStep a =
        a * 10 ^ (renderNatFuel fuel n).length + n := by
  intro fuel
  induction fuel with
  | zero => intro n a h; omega
  | succ f ih =>
    intro n a h
    by_cases h10 : n < 10
    · simp only [renderNatFuel, if_pos h10, List.foldl_cons, List.foldl_nil,
        List.length_singleton, pow_one, digitStep, digitChar_toNat h10]
      omega
    · have hdiv : n / 10 < f := by omega
      simp only [renderNatFuel, if_neg h10, List.foldl_append, List.foldl_cons,
        List.foldl_nil, List.length_append, List.length_singleton]
      rw [ih (n / 10) a hdiv]
      have hmod : (digitChar (n % 10)).toNat = 48 + n % 10 :=
        digitChar_toNat (by omega)
      simp only [digitStep, hmod]
      have hpow : 10 ^ ((renderNatFuel f (n / 10)).length + 1) =
          10 ^ (renderNatFuel f (n / 10)).length * 10 := pow_succ 10 _
      rw [hpow]
      have : 10 * (a * 10 ^ (renderNatFuel f (n / 10)).length + n / 10) +
          (48 + n % 10 - 48) =
          a * (10 ^ (renderNatFuel f (n / 10)).length * 10) +
            (10 * (n / 10) + n % 10) := by ring_nf; omega
      rw [this]
      omega

theorem renderNat_all_digits (n : Nat) : (renderNat n).all isDigit = true := by
  rw [List.all_eq_true]
  intro c hc
  rcases renderNatFuel_digits (n + 1) n (by omega) c hc with ⟨d, hd, rfl⟩
  exact isDigit_digitChar hd

theorem renderNat_ne_nil (n : Nat) : renderNat n ≠ [] :=
  renderNatFuel_ne_nil (by omega)

theorem parseNat_renderNat (n : Nat) : parseNat (renderNat n) = some n := by
  rw [parseNat, if_neg (renderNat_ne_nil n), if_pos (renderNat_all_digits n)]
  rw [renderNat, renderNatFuel_foldl (n + 1) n 0 (by omega)]
  simp

theorem mem_renderNat_isDigit {n : Nat} {c : Char} (hc : c ∈ renderNat n) :
    isDigit c = true := by
  rcases renderNatFuel_digits (n + 1) n (by omega) c hc with ⟨d, hd, rfl⟩
  exact isDigit_digitChar hd

theorem renderInt_ne_nil (i : Int) : renderInt i ≠ [] := by
  cases i with
  | ofNat n => exact renderNat_ne_nil n
  | negSucc n => simp [renderInt]

theorem parseInt_renderInt (i : Int) : parseInt (renderInt i) = some i := by
  cases i with
  | ofNat n =>
    rcases List.exists_cons_of_ne_nil (renderNat_ne_nil n) with ⟨c, cs, hcs⟩
    have hcd : isDigit c = true := mem_renderNat_isDigit (by

      rw [hcs]; exact List.mem_cons_self c cs)
    have hcne : ¬ c = '-' := by
      intro hEq
      rw [hEq] at hcd
      exact absurd hcd (by decide)
    have h1 : renderInt (Int.ofNat n) = c :: cs := hcs
    rw [h1, parseInt, if_neg hcne, ← hcs, parseNat_renderNat]
    rfl
  | negSucc n =>
    have h1 : renderInt (Int.negSucc n) = '-' :: renderNat (n + 1) := rfl
    rw [h1, parseInt, if_pos rfl, parseNat_renderNat]
    simp [Int.negSucc_eq]

theorem parseOptInt_renderOptInt (o : Option Int) :
    parseOptInt (renderOptInt o) = some o := by
  cases o with
  | none => rfl
  | some i =>
    rcases List.exists_cons_of_ne_nil (renderInt_ne_nil i) with ⟨c, cs, hcs⟩
    have h1 : renderOptInt (some i) = c :: cs := hcs
    rw [h1, parseOptInt, ← hcs]
    rw [parseInt_renderInt]
    rfl

theorem parseNType_renderNType (t : NType) :
    parseNType (renderNType t) = some t := by
  cases t <;> decide

theorem not_comma_of_isDigit {c : Char} (h : isDigit c = true) : c ≠ ',' := by
  intro hEq
  rw [hEq] at h
  exact absurd h (by decide)

theorem not_nl_of_isDigit {c : Char} (h : isDigit c = true) : c ≠ '\n' := by
  intro hEq
  rw [hEq] at h
  exact absurd h (by decide)

theorem renderInt_cell_ok (i : Int) : ',' ∉ renderInt i ∧ '\n' ∉ renderInt i := by
  constructor
  · intro hmem
    cases i with
    | ofNat n => exact not_comma_of_isDigit (mem_renderNat_isDigit hmem) rfl
    | negSucc n =>
      rcases List.mem_cons.mp hmem with h | h
      · exact absurd h.symm (by decide)
      · exact not_comma_of_isDigit (mem_renderNat_isDigit h) rfl
  · intro hmem
    cases i with
    | ofNat n => exact not_nl_of_isDigit (mem_renderNat_isDigit hmem) rfl
    | negSucc n =>
      rcases List.mem_cons.mp hmem with h | h
      · exact absurd h.symm (by decide)
      · exact not_nl_of_isDigit (mem_renderNat_isDigit h) rfl

theorem renderOptInt_cell_ok (o : Option Int) :
    ',' ∉ renderOptInt o ∧ '\n' ∉ renderOptInt o := by
  cases o with
  | none => exact ⟨List.not_mem_nil _, List.not_mem_nil _⟩
  | some i => exact renderInt_cell_ok i

theorem renderNType_cell_ok (t : NType) :
    ',' ∉ renderNType t ∧ '\n' ∉ renderNType t := by
  cases t <;> exact ⟨by decide, by decide⟩

theorem rowCells_ok {r : NRecord}
    (hsym : ',' ∉ r.symbol.toList ∧ '\n' ∉ r.symbol.toList) :
    ∀ g ∈ rowCells r, ',' ∉ g ∧ '\n' ∉ g := by
  intro g hg
  simp only [rowCells, List.mem_cons, List.not_mem_nil, or_false] at hg
  rcases hg with rfl | rfl | rfl | rfl | rfl | rfl | rfl | rfl | rfl | rfl | rfl | rfl
  · exact hsym
  · exact renderNType_cell_ok _
  · exact renderOptInt_cell_ok _
  · exact renderOptInt_cell_ok _
  · exact renderOptInt_cell_ok _
  · exact renderOptInt_cell_ok _
  · exact renderOptInt_cell_ok _
  · exact renderOptInt_cell_ok _
  · exact renderOptInt_cell_ok _
  · exact renderOptInt_cell_ok _
  · exact renderOptInt_cell_ok _
  · exact renderInt_cell_ok _

theorem headerCells_ok : ∀ g ∈ headerCells, ',' ∉ g ∧ '\n' ∉ g := by
  decide

theorem joinComma_no_nl {cells : List (List Char)}
    (h : ∀ g ∈ cells, ',' ∉ g ∧ '\n' ∉ g) : '\n' ∉ joinComma cells := by
  intro hmem
  rcases mem_joinSep hmem with h1 | ⟨g, hg, hcg⟩
  · exact absurd h1.symm (by decide)
  · exact (h g hg).2 hcg

theorem parseRow_rowCells (r : NRecord) : parseRow (rowCells r) = some r := by
  simp only [rowCells, parseRow, parseNType_renderNType,
    parseOptInt_renderOptInt, parseInt_renderInt]
  rfl

theorem seqOption_map_some {α : Type} {f : α → Option α} :
    ∀ {l : List α}, (∀ x ∈ l, f x = some x) → seqOption (l.map f) = some l := by
  intro l
  induction l with
  | nil => intro _; rfl
  | cons a as ih =>
    intro h
    simp only [List.map_cons, seqOption, h a (List.mem_cons_self a as),
      ih (fun x hx => h x (List.mem_cons_of_mem a hx))]

/-- C7: exporting a table whose symbols are free of the separator
characters to CSV (header row of exactly the record's columns included)
and parsing the CSV back reproduces the table exactly — same rows, same
column values. -/
theorem c7_csv_roundtrip (rs : List NRecord)
    (hsym : ∀ r ∈ rs, ',' ∉ r.symbol.toList ∧ '\n' ∉ r.symbol.toList) :
    parse_csv (to_csv rs) = some rs := by
  have hlines : ∀ line ∈ (headerCells :: rs.map rowCells).map joinComma,
      '\n' ∉ line := by
    intro line hline
    rcases List.mem_map.mp hline with ⟨cells, hcells, rfl⟩
    rcases List.mem_cons.mp hcells with rfl | hcells
    · exact joinComma_no_nl headerCells_ok
    · rcases List.mem_map.mp hcells with ⟨r, hr, rfl⟩
      exact joinComma_no_nl (rowCells_ok (hsym r hr))
  have hsplit : splitOnSep '\n' (to_csv rs) =
      joinComma headerCells :: (rs.map rowCells).map joinComma := by
    rw [to_csv, splitOnSep_joinSep _ hlines (by simp)]
    rfl
  have hdef : parse_csv (to_csv rs) =
      match splitOnSep '\n' (to_csv rs) with
      | [] => none
      | h :: rows =>
        if h = joinComma headerCells
        then seqOption (rows.map (fun line => parseRow (splitOnSep ',' line)))
        else none := rfl
  rw [hdef, hsplit]
  simp only [if_pos rfl]
  rw [List.map_map, List.map_map]
  exact seqOption_map_some (fun r hr => by
    have hcells : splitOnSep ',' (joinComma (rowCells r)) = rowCells r := by
      rw [joinComma,
        splitOnSep_joinSep _ (fun g hg => (rowCells_ok (hsym r hr) g hg).1)
          (by simp [rowCells])]
    show parseRow (splitOnSep ',' (joinComma (rowCells r))) = some r
    rw [hcells, parseRow_rowCells])

/-- Witness for C7: the worked-example table round-trips through the
CSV text. -/
theorem c7_csv_roundtrip_witness :
    parse_csv (to_csv [rc9a, rc9b]) = some [rc9a, rc9b] :=
  c7_csv_roundtrip [rc9a, rc9b] (by decide)

end OptionsDash
